import Mathlib

/-!
Verification development for the MyTechFun filament-viewer ingestion and
statistics core.  The definitions below are shallow embeddings of the
TypeScript sources `src/utils/excel.ts` (sanitization, URL validation, row
mapping) and `src/utils/statistics.ts` (Pearson correlation, linear
regression, descriptive statistics, min-max normalization).  Strings are
modelled as `String`/`List Char`, spreadsheet numbers as `ℚ` in the row
pipeline (where only presence/nullness matters) and as `ℝ` in the
statistics engine (where square roots appear).
-/

set_option maxRecDepth 4000

namespace MyTechFun

/-! ## JS character and string primitives -/

/-- ASCII whitespace, modelling the whitespace class used by JS `trim` and
the regex `\s` on the inputs this development evaluates. -/
def isWsChar (c : Char) : Bool :=
  c = ' ' || c = '\t' || c = '\n' || c = '\r' || c = '\x0b' || c = '\x0c'

/-- Word character, modelling the regex class `\w` = `[A-Za-z0-9_]`. -/
def wordChar (c : Char) : Bool :=
  ('a' ≤ c && c ≤ 'z') || ('A' ≤ c && c ≤ 'Z') || ('0' ≤ c && c ≤ '9') || c = '_'

/-- Case-insensitive character pattern: a literal is matched by either its
lowercase or its uppercase form (ASCII case folding of the `i` regex flag). -/
def prefixCI : List Char → List (Char × Char) → Bool
  | _, [] => true
  | [], _ :: _ => false
  | c :: cs, (lo, up) :: ps => (c = lo || c = up) && prefixCI cs ps

/-- JS `String.prototype.trim` on character lists: drop leading and trailing
whitespace. -/
def trimChars (l : List Char) : List Char :=
  List.rdropWhile (fun c => isWsChar c) (l.dropWhile (fun c => isWsChar c))

/-- JS `String.prototype.trim`. -/
def jsTrimStr (s : String) : String := (trimChars s.toList).asString

/-- Count of leading characters satisfying `p` (length of `takeWhile`). -/
def countWhile (p : Char → Bool) (l : List Char) : Nat := (l.takeWhile p).length

/-! ## The three removal patterns of `sanitizeString`

`sanitizeString` applies four global regex replacements:
script tags, `javascript:`, `on<word>=` handlers, and `[<>]`.
Each of the first three is modelled as a matcher returning the length of the
leftmost match starting at the head of the list (or `none`). -/

/-- Pattern `javascript:` with the `i` flag, as lowercase/uppercase pairs. -/
def patJavascript : List (Char × Char) :=
  [('j','J'),('a','A'),('v','V'),('a','A'),('s','S'),('c','C'),('r','R'),
   ('i','I'),('p','P'),('t','T'),(':',':')]

/-- Pattern `script` (the letters after `<` in `<script`). -/
def patScriptWord : List (Char × Char) :=
  [('s','S'),('c','C'),('r','R'),('i','I'),('p','P'),('t','T')]

/-- Pattern `</script>`. -/
def patCloseScript : List (Char × Char) :=
  [('<','<'),('/','/'),('s','S'),('c','C'),('r','R'),('i','I'),('p','P'),
   ('t','T'),('>','>')]

/-- Matcher for `/javascript:/gi` at the head of the list: 11 characters. -/
def matchJS (l : List Char) : Option Nat :=
  if prefixCI l patJavascript then some 11 else none

/-- Matcher for `/on\w+\s*=/gi` at the head of the list.  The greedy `\w+`
and `\s*` admit no other backtracking solution because `=` is neither a word
nor a whitespace character, so the match is the maximal word run followed by
the maximal whitespace run followed by `=`. -/
def matchOn (l : List Char) : Option Nat :=
  match l with
  | c₁ :: c₂ :: rest =>
    if (c₁ = 'o' || c₁ = 'O') && (c₂ = 'n' || c₂ = 'N') then
      let w := countWhile (fun c => wordChar c) rest
      if w = 0 then none
      else
        let rest₂ := rest.drop w
        let s := countWhile (fun c => isWsChar c) rest₂
        match rest₂.drop s with
        | '=' :: _ => some (2 + w + s + 1)
        | _ => none
    else none
  | _ => none

/-- Index of the first occurrence of `</script>` (case-insensitive). -/
def findCloseScript : List Char → Option Nat
  | [] => none
  | c :: rest =>
    if prefixCI (c :: rest) patCloseScript then some 0
    else (findCloseScript rest).map (· + 1)

/-- Matcher for `/<script\b[^<]*(?:(?!<\/script>)<[^<]*)*<\/script>/gi` at the
head of the list.  The body `[^<]*(?:(?!<\/script>)<[^<]*)*` consumes exactly
the characters up to the first case-insensitive `</script>`, so a match is
`<script`, a word boundary, everything through the first `</script>`. -/
def matchScript (l : List Char) : Option Nat :=
  match l with
  | [] => none
  | c₀ :: rest =>
    if c₀ = '<' then
      if prefixCI rest patScriptWord then
        match rest.drop 6 with
        | [] => none
        | c :: cs =>
          if wordChar c then none
          else
            match findCloseScript (c :: cs) with
            | some j => some (7 + j + 9)
            | none => none
      else none
    else none

/-- One pass of a global regex replacement by the empty string: scan left to
right; at each position either remove the leftmost match or keep the
character and advance.  Fuelled for structural recursion; every matcher used
here consumes at least one character, and fuel `l.length` always suffices. -/
def scanStripAux (m : List Char → Option Nat) : Nat → List Char → List Char
  | 0, l => l
  | _ + 1, [] => []
  | fuel + 1, c :: rest =>
    match m (c :: rest) with
    | some n => scanStripAux m fuel (rest.drop (n - 1))
    | none => c :: scanStripAux m fuel rest

/-- Global replacement of a pattern by the empty string. -/
def scanStrip (m : List Char → Option Nat) (l : List Char) : List Char :=
  scanStripAux m l.length l

/-- Does any suffix of the list start a match?  `false` means the global
replacement leaves the list unchanged. -/
def anyMatch (m : List Char → Option Nat) : List Char → Bool
  | [] => false
  | c :: rest => (m (c :: rest)).isSome || anyMatch m rest

/-- Character-list core of `sanitizeString` from `excel.ts`: remove script
tags, then `javascript:` occurrences, then `on\w+\s*=` handlers, then all
angle brackets, then trim. -/
def sanitizeChars (l : List Char) : List Char :=
  trimChars
    (List.filter (fun c => !(c = '<' || c = '>'))
      (scanStrip matchOn (scanStrip matchJS (scanStrip matchScript l))))

/-- `sanitizeString` from `excel.ts`, restricted to string input (the
non-string coercion arm is modelled separately at the cell level). -/
def sanitizeString (s : String) : String := (sanitizeChars s.toList).asString

/-! ## Statistics engine (`statistics.ts`)

The numeric functions are modelled over the real numbers: JS numbers are
treated as ideal reals, `Math.sqrt` as `Real.sqrt`. -/

noncomputable section

/-- `x.reduce((a, b) => a + b, 0)`. -/
def jsSum (l : List ℝ) : ℝ := l.foldl (· + ·) 0

/-- `x.reduce((acc, xi, i) => acc + xi * y[i], 0)`; behind the equal-length
guard this is the sum of pairwise products, i.e. the fold over the zip. -/
def jsSumXY (x y : List ℝ) : ℝ :=
  (x.zip y).foldl (fun acc p => acc + p.1 * p.2) 0

/-- `x.reduce((acc, xi) => acc + xi * xi, 0)`. -/
def jsSumSq (l : List ℝ) : ℝ := l.foldl (fun acc v => acc + v * v) 0

/-- `calculatePearsonCorrelation` from `statistics.ts` (`n` is `x.length`
throughout, as in the source, where it is also used against `y`). -/
def calculatePearsonCorrelation (x y : List ℝ) : ℝ :=
  if x.length ≠ y.length ∨ x.length < 2 then 0
  else
    if Real.sqrt (((x.length : ℝ) * jsSumSq x - jsSum x * jsSum x)
        * ((x.length : ℝ) * jsSumSq y - jsSum y * jsSum y)) = 0 then 0
    else ((x.length : ℝ) * jsSumXY x y - jsSum x * jsSum y)
      / Real.sqrt (((x.length : ℝ) * jsSumSq x - jsSum x * jsSum x)
          * ((x.length : ℝ) * jsSumSq y - jsSum y * jsSum y))

/-- Result record of `calculateLinearRegression`. -/
structure RegressionResult where
  slope : ℝ
  intercept : ℝ
  rSquared : ℝ

/-- The divisor of the slope computation in `calculateLinearRegression`:
`n * sumXX - sumX * sumX`.  The function divides by it with no zero guard
(only `n < 2` is checked). -/
def slopeDenominator (x : List ℝ) : ℝ :=
  (x.length : ℝ) * jsSumSq x - jsSum x * jsSum x

/-- The dividend of the slope computation: `n * sumXY - sumX * sumY`. -/
def slopeNumerator (x y : List ℝ) : ℝ :=
  (x.length : ℝ) * jsSumXY x y - jsSum x * jsSum y

/-- `calculateLinearRegression` from `statistics.ts`. -/
def calculateLinearRegression (x y : List ℝ) : RegressionResult :=
  if x.length < 2 then ⟨0, 0, 0⟩
  else
    let slope := slopeNumerator x y / slopeDenominator x
    let intercept := (jsSum y - slope * jsSum x) / (x.length : ℝ)
    let correlation := calculatePearsonCorrelation x y
    ⟨slope, intercept, correlation * correlation⟩

/-- Insertion into a sorted list, ascending. -/
def insertAsc (a : ℝ) : List ℝ → List ℝ
  | [] => [a]
  | b :: t => if a ≤ b then a :: b :: t else b :: insertAsc a t

/-- Ascending sort, modelling `[...values].sort((a, b) => a - b)` (the
result is the unique sorted permutation of the input). -/
def sortAsc : List ℝ → List ℝ
  | [] => []
  | a :: t => insertAsc a (sortAsc t)

/-- Result record of `calculateStatistics`. -/
structure StatResult where
  mean : ℝ
  median : ℝ
  stdDev : ℝ
  q1 : ℝ
  q3 : ℝ
  min : ℝ
  max : ℝ
  count : Nat

/-- The population variance computed inline in `calculateStatistics`:
`values.reduce((acc, val) => acc + Math.pow(val - mean, 2), 0) / n`. -/
def listVariance (values : List ℝ) : ℝ :=
  let n : ℝ := values.length
  let mean := jsSum values / n
  (values.foldl (fun acc val => acc + (val - mean) ^ 2) 0) / n

/-- `calculateStatistics` from `statistics.ts`.  The quartile indices
`Math.floor(n * 0.25)`, `Math.floor(n * 0.5)`, `Math.floor(n * 0.75)` are
exact in floating point for every list length, so they are modelled as the
natural-number divisions `n / 4`, `n / 2`, `3 * n / 4`. -/
def calculateStatistics (values : List ℝ) : Option StatResult :=
  if values.length = 0 then none
  else
    let sorted := sortAsc values
    let n := values.length
    some {
      mean := jsSum values / (n : ℝ)
      median := sorted.getD (n / 2) 0
      stdDev := Real.sqrt (listVariance values)
      q1 := sorted.getD (n / 4) 0
      q3 := sorted.getD (3 * n / 4) 0
      min := sorted.getD 0 0
      max := sorted.getD (n - 1) 0
      count := n }

/-- `normalizeMinMax` from `statistics.ts`.  `Math.min(...values)` and
`Math.max(...values)` on a nonempty list are folds from the first element;
on the empty list the map produces the empty list, so that case is split
off (the JS range would be `-Infinity` there and the map is vacuous). -/
def normalizeMinMax (values : List ℝ) : List ℝ :=
  match values with
  | [] => []
  | c :: rest =>
    let mn := rest.foldl min c
    let mx := rest.foldl max c
    let range := mx - mn
    if range = 0 then (c :: rest).map (fun _ => 0)
    else (c :: rest).map (fun val => (val - mn) / range * 100)

end

/-! ## Excel row pipeline (`excel.ts`, flexible variant)

The row mapper modelled below is the `validateAndSanitizeRow` variant that
assigns `null` for skipped cells and accepts a row on an identification
signal.  Spreadsheet numbers are modelled as rationals (only their presence,
zero-ness and nullness matter to the claims). -/

/-- Raw spreadsheet cell as seen by the row mapper (`any` in the source). -/
inductive Cell
  | undef
  | null
  | str (s : String)
  | num (q : ℚ)
deriving DecidableEq

/-- Value stored in a mapped record: `null`, a string, or a number. -/
inductive JsValue
  | vnull
  | vstr (s : String)
  | vnum (q : ℚ)
deriving DecidableEq

/-- JS object modelled as an insertion-ordered association list with
distinct keys. -/
abbrev Obj := List (String × JsValue)

/-- Property assignment `o[k] = v`: overwrite in place, or append. -/
def objSet (o : Obj) (k : String) (v : JsValue) : Obj :=
  match o with
  | [] => [(k, v)]
  | (k', v') :: t => if k' = k then (k, v) :: t else (k', v') :: objSet t k v

/-- Property read `o[k]` (`none` plays JS `undefined`). -/
def objGet (o : Obj) (k : String) : Option JsValue :=
  match o with
  | [] => none
  | (k', v') :: t => if k' = k then some v' else objGet t k

/-- `Object.keys`. -/
def objKeys (o : Obj) : List String := o.map (fun p => p.1)

/-- Number of fields holding a non-null value. -/
def populatedCount (o : Obj) : Nat :=
  (o.filter (fun p => p.2 != JsValue.vnull)).length

/-- ASCII lowercasing, modelling `String.prototype.toLowerCase` on the
ASCII inputs of this pipeline. -/
def lcChar (c : Char) : Char :=
  if 'A' ≤ c ∧ c ≤ 'Z' then Char.ofNat (c.toNat + 32) else c

/-- `String.prototype.toLowerCase`. -/
def lowerStr (s : String) : String := (s.data.map lcChar).asString

/-- Plain (case-sensitive) list prefix test. -/
def startsWithChars : List Char → List Char → Bool
  | _, [] => true
  | [], _ :: _ => false
  | c :: cs, p :: ps => c = p && startsWithChars cs ps

/-- Substring occurrence, modelling `String.prototype.includes`. -/
def containsSub : List Char → List Char → Bool
  | [], pat => startsWithChars [] pat
  | c :: rest, pat => startsWithChars (c :: rest) pat || containsSub rest pat

/-- String suffix test, modelling `String.prototype.endsWith`. -/
def strEndsWith (s t : String) : Bool :=
  startsWithChars s.data.reverse t.data.reverse

def isDigitChar (c : Char) : Bool := '0' ≤ c && c ≤ '9'

def isHexDigitChar (c : Char) : Bool :=
  isDigitChar c || ('a' ≤ c && c ≤ 'f') || ('A' ≤ c && c ≤ 'F')

def isOctDigitChar (c : Char) : Bool := '0' ≤ c && c ≤ '7'

def isBinDigitChar (c : Char) : Bool := c = '0' || c = '1'

/-- Nonempty run of digits of the given kind and nothing else. -/
def radixTail (p : Char → Bool) (l : List Char) : Bool :=
  !l.isEmpty && l.all p

/-- Exponent tail of a JS decimal literal: empty, or `e`/`E`, an optional
sign and a nonempty digit run. -/
def expTail (l : List Char) : Bool :=
  match l with
  | [] => true
  | e :: rest =>
    if e = 'e' || e = 'E' then
      let rest₂ := match rest with
        | s :: r => if s = '+' || s = '-' then r else rest
        | [] => rest
      let d := countWhile isDigitChar rest₂
      d != 0 && (rest₂.drop d).isEmpty
    else false

/-- Decimal body of a JS numeric literal: digits, an optional fraction,
at least one digit overall, then an optional exponent. -/
def decTail (l : List Char) : Bool :=
  let a := countWhile isDigitChar l
  let l₁ := l.drop a
  match l₁ with
  | '.' :: l₂ =>
    let b := countWhile isDigitChar l₂
    if a + b = 0 then false else expTail (l₂.drop b)
  | _ => if a = 0 then false else expTail l₁

/-- Signed decimal literal or `Infinity`. -/
def signedBody (l : List Char) : Bool :=
  let l₁ := match l with
    | s :: r => if s = '+' || s = '-' then r else l
    | [] => l
  (startsWithChars l₁ "Infinity".data && (l₁.drop 8).isEmpty) || decTail l₁

/-- Does the (already trimmed) string fully parse under JS `Number()`?
Modelled for decimal literals with optional sign, fraction and exponent,
plus `Infinity` and unsigned hexadecimal/octal/binary literals. -/
def jsNumberParses (l : List Char) : Bool :=
  match l with
  | c₀ :: c₁ :: rest =>
    if c₀ = '0' && (c₁ = 'x' || c₁ = 'X') then radixTail isHexDigitChar rest
    else if c₀ = '0' && (c₁ = 'o' || c₁ = 'O') then radixTail isOctDigitChar rest
    else if c₀ = '0' && (c₁ = 'b' || c₁ = 'B') then radixTail isBinDigitChar rest
    else signedBody l
  | _ => signedBody l

/-- Numeric value of a digit run. -/
def digitsVal (l : List Char) : Nat :=
  l.foldl (fun n c => n * 10 + (c.toNat - '0'.toNat)) 0

/-- `parseFloat` on the cleaned string (which contains only digits, dots
and minus signs, so no exponent or `Infinity` can occur): parse the longest
numeric leading portion, `none` when there is none. -/
def parseFloatLead (l : List Char) : Option ℚ :=
  let sl : ℚ × List Char := match l with
    | '-' :: r => (-1, r)
    | '+' :: r => (1, r)
    | _ => (1, l)
  let a := sl.2.takeWhile isDigitChar
  let l₂ := sl.2.drop a.length
  match l₂ with
  | '.' :: l₃ =>
    let b := l₃.takeWhile isDigitChar
    if a.length = 0 ∧ b.length = 0 then none
    else some (sl.1 * ((digitsVal a : ℚ) + (digitsVal b : ℚ) / 10 ^ b.length))
  | _ => if a.length = 0 then none else some (sl.1 * (digitsVal a : ℚ))

/-- `Number(x.toFixed(10))`, modelled as decimal rounding (half away from
zero) to ten fractional digits. -/
def roundTo10 (q : ℚ) : ℚ :=
  if q < 0 then -(((Int.floor ((-q) * 10 ^ 10 + 1 / 2) : ℤ) : ℚ) / 10 ^ 10)
  else ((Int.floor (q * 10 ^ 10 + 1 / 2) : ℤ) : ℚ) / 10 ^ 10

/-- JS number-to-string (`String(number)`), modelled as plain decimal
printing; the claims never depend on the exact rendering. -/
def jsNumToString (q : ℚ) : String :=
  let sgnStr := if q < 0 then "-" else ""
  let a : ℚ := |q|
  let ip : Nat := (Int.floor a).toNat
  let fr : ℚ := a - (ip : ℚ)
  if fr = 0 then sgnStr ++ toString ip
  else sgnStr ++ toString ip ++ "." ++ toString (Int.floor (fr * 10 ^ 10)).toNat

/-- `String(value)`. -/
def jsCellToString (c : Cell) : String :=
  match c with
  | Cell.undef => "undefined"
  | Cell.null => "null"
  | Cell.str s => s
  | Cell.num q => jsNumToString q

/-- `sanitizeString(value)` at cell type: strings go through the removal
pipeline; every other value is returned as `String(value || '')` with no
further processing, exactly as in the source. -/
def sanitizeCell (c : Cell) : String :=
  match c with
  | Cell.str s => sanitizeString s
  | Cell.num q => if q = 0 then "" else jsNumToString q
  | _ => ""

/-- `sanitizeNumber` from `excel.ts`: finite numbers are rounded to ten
decimal digits; strings are stripped to digits, dots and minus signs and
`parseFloat`ed, collapsing to 0 when unparseable; anything else is 0. -/
def sanitizeNumber (c : Cell) : ℚ :=
  match c with
  | Cell.num q => roundTo10 q
  | Cell.str s =>
    let cleaned := s.data.filter (fun ch => isDigitChar ch || ch = '.' || ch = '-')
    match parseFloatLead cleaned with
    | some v => roundTo10 v
    | none => 0
  | _ => 0

/-! ## URL validation -/

/-- Parsed absolute URL: scheme and hostname, both lowercased. -/
structure ParsedUrl where
  scheme : String
  host : String
deriving DecidableEq

/-- First split at a character: parts strictly before and after its first
occurrence. -/
def splitAtChar (c : Char) : List Char → Option (List Char × List Char)
  | [] => none
  | x :: r =>
    if x = c then some ([], r)
    else (splitAtChar c r).map (fun p => (x :: p.1, p.2))

/-- Part after the last occurrence of a character (the whole list when the
character is absent). -/
def afterLast (c : Char) (l : List Char) : List Char :=
  (l.reverse.takeWhile (fun x => x != c)).reverse

/-- WHATWG forbidden host code points (the subset relevant to ASCII input). -/
def forbiddenHostChar (c : Char) : Bool :=
  c = '\x00' || c = '\t' || c = '\n' || c = '\r' || c = ' ' || c = '#'
    || c = '%' || c = '/' || c = ':' || c = '<' || c = '>' || c = '?'
    || c = '@' || c = '[' || c = '\\' || c = ']' || c = '^' || c = '|'

/-- Modelled from the platform's WHATWG `new URL` parser, restricted to the
special schemes `http`/`https` (any other scheme is mapped to a parse
failure; `validateUrl` rejects those URLs either way): scheme, `:`, any run
of slashes or backslashes, then the authority up to a delimiter; the host
is the authority after the last `@`, with a trailing all-digit `:port`
stripped, lowercased; an empty host or one containing a forbidden code
point fails. -/
def parseUrl (s : String) : Option ParsedUrl :=
  match splitAtChar ':' s.data with
  | none => none
  | some (schemeRaw, rest) =>
    let scheme := (schemeRaw.map lcChar).asString
    if scheme = "http" ∨ scheme = "https" then
      let afterSlashes := rest.dropWhile (fun c => c = '/' || c = '\\')
      let authority := afterSlashes.takeWhile
        (fun c => !(c = '/' || c = '\\' || c = '?' || c = '#'))
      let hostPort := afterLast '@' authority
      let hp : List Char × List Char := match splitAtChar ':' hostPort with
        | some (h, p) => (h, p)
        | none => (hostPort, [])
      if hp.2.all isDigitChar && !hp.1.isEmpty && hp.1.all (fun c => !forbiddenHostChar c)
      then some ⟨scheme, (hp.1.map lcChar).asString⟩
      else none
    else none

/-- The trusted-hostname allow-list of `validateUrl`. -/
def trustedDomains : List String := ["youtube.com", "youtu.be", "www.youtube.com"]

/-- `validateUrl` from `excel.ts`: empty input gives empty; otherwise
sanitize, parse, require an http/https protocol and a hostname equal to, or
a dot-suffixed subdomain of, a trusted domain, returning the sanitized
string on success and empty on any failure. -/
def validateUrl (url : String) : String :=
  if url = "" then ""
  else
    let cleaned := sanitizeString url
    match parseUrl cleaned with
    | none => ""
    | some u =>
      if !(u.scheme = "http" || u.scheme = "https") then ""
      else if !(trustedDomains.any (fun d =>
          lowerStr u.host = d || strEndsWith (lowerStr u.host) ("." ++ d))) then ""
      else cleaned

/-- Spec-side contract predicate for `validateUrl`: the sanitized string
parses as an absolute http/https URL whose hostname is a trusted domain or
a dot-suffixed subdomain of one. -/
def urlAllowed (s : String) : Bool :=
  match parseUrl s with
  | none => false
  | some u =>
    (u.scheme = "http" || u.scheme = "https")
      && trustedDomains.any (fun d =>
          lowerStr u.host = d || strEndsWith (lowerStr u.host) ("." ++ d))

/-! ## Row mapping -/

/-- Skip test of the row mapper:
`value === undefined || value === null || value === '' || value === 'undefined'`. -/
def skipValue (value : Cell) : Bool :=
  value == Cell.undef || value == Cell.null
    || value == Cell.str "" || value == Cell.str "undefined"

/-- Header routing test: the lowercased clean header contains `link` or `url`. -/
def isUrlHeader (cleanHeader : String) : Bool :=
  containsSub (lowerStr cleanHeader).data "link".data
    || containsSub (lowerStr cleanHeader).data "url".data

/-- Numeric routing test:
`typeof value === 'number' || (!isNaN(Number(String(value).trim())) && String(value).trim() !== '')`. -/
def isNumericCell (value : Cell) : Bool :=
  match value with
  | Cell.num _ => true
  | Cell.str s => jsNumberParses (jsTrimStr s).data && (jsTrimStr s != "")
  | _ => false

/-- Value stored for one retained header — the branch bodies of
`validateAndSanitizeRow`: null for skipped cells; a validated URL or null
for link/url headers; a sanitized number for numeric values; otherwise the
sanitized string, or null when it is empty. -/
def cellValue (row : List Cell) (idx : Nat) (cleanHeader : String) : JsValue :=
  let value := row.getD idx Cell.undef
  if skipValue value then JsValue.vnull
  else if isUrlHeader cleanHeader then
    let u := validateUrl (jsCellToString value)
    if u = "" then JsValue.vnull else JsValue.vstr u
  else if isNumericCell value then JsValue.vnum (sanitizeNumber value)
  else
    let t := sanitizeCell value
    if t = "" then JsValue.vnull else JsValue.vstr t

/-- One header step of the `headerRow.forEach` in `validateAndSanitizeRow`:
skip empty or whitespace-only headers and headers sanitizing to empty;
otherwise assign the computed value under the sanitized header.  (Every
branch of the source assigns; the `hasValidData` flag the source also sets
is never read anywhere, and is omitted.) -/
def processHeader (row : List Cell) (acc : Obj) (idx : Nat) (header : String) : Obj :=
  if header = "" ∨ jsTrimStr header = "" then acc
  else
    let cleanHeader := sanitizeString header
    if cleanHeader = "" then acc
    else objSet acc cleanHeader (cellValue row idx cleanHeader)

def buildRowAux (row : List Cell) : List String → Nat → Obj → Obj
  | [], _, acc => acc
  | h :: t, i, acc => buildRowAux row t (i + 1) (processHeader row acc i h)

/-- The full `headerRow.forEach` fold of `validateAndSanitizeRow`. -/
def buildRow (row : List Cell) (headerRow : List String) : Obj :=
  buildRowAux row headerRow 0 []

/-- JS truthiness of a property read (`undefined`, `null`, `''` and `0` are
falsy; every other storable value is truthy). -/
def jsTruthy (v : Option JsValue) : Bool :=
  match v with
  | none => false
  | some JsValue.vnull => false
  | some (JsValue.vstr s) => s != ""
  | some (JsValue.vnum q) => q != 0

/-- `validateAndSanitizeRow` (flexible variant): build the record, then
accept it iff `Brand`, `Filament type`, `Material` or `Type` reads truthy,
or `Object.keys(sanitizedRow).length > 5`. -/
def validateAndSanitizeRow (row : List Cell) (headerRow : List String) : Option Obj :=
  let sanitizedRow := buildRow row headerRow
  if jsTruthy (objGet sanitizedRow "Brand")
      || jsTruthy (objGet sanitizedRow "Filament type")
      || jsTruthy (objGet sanitizedRow "Material")
      || jsTruthy (objGet sanitizedRow "Type")
      || decide (5 < (objKeys sanitizedRow).length) then
    some sanitizedRow
  else none

/-- Spec-side identification signal (the amended C5 reading): one of the
four identifying columns reads truthy, or the record has more than five
keys in total. -/
def identificationSignal (o : Obj) : Bool :=
  (["Brand", "Filament type", "Material", "Type"].any
      (fun k => jsTruthy (objGet o k)))
    || decide (5 < o.length)

/-- Key-set contribution of one header (`stepKeys`-fold below reproduces
`Object.keys` of a mapped record from the header row alone). -/
def stepKeys (ks : List String) (h : String) : List String :=
  if sanitizeString h = "" then ks
  else if sanitizeString h ∈ ks then ks
  else ks ++ [sanitizeString h]

/-- Key sequence every record built against this header row exposes. -/
def recordKeys (headerRow : List String) : List String :=
  headerRow.foldl stepKeys []

/-- Value the fold will leave under key `k`: the contribution of the last
header writing `k`, scanning from index `i`. -/
def pendingValue (row : List Cell) : List String → Nat → String → Option JsValue
  | [], _, _ => none
  | h :: t, i, k =>
    match pendingValue row t (i + 1) k with
    | some v => some v
    | none =>
      if ¬(h = "" ∨ jsTrimStr h = "") ∧ sanitizeString h ≠ "" ∧ sanitizeString h = k
      then some (cellValue row i k)
      else none

/-- A 1001-character string: sanitization leaves it unchanged and it
exceeds the 1000-character bound of claim C4. -/
def longA : String := (List.replicate 1001 'a').asString

/-- Six-column header row whose cells are all absent. -/
def headers6 : List String := ["A", "B", "C", "D", "E", "F"]

/-- The record the row mapper builds from `headers6` and an empty raw row. -/
def nullRec6 : Obj :=
  [("A", JsValue.vnull), ("B", JsValue.vnull), ("C", JsValue.vnull),
   ("D", JsValue.vnull), ("E", JsValue.vnull), ("F", JsValue.vnull)]

/-! ## Theorems: general lemmas on the sanitizer -/

theorem mem_dropWhile_imp {p : Char → Bool} {l : List Char} {c : Char}
    (h : c ∈ l.dropWhile p) : c ∈ l := by
  induction l with
  | nil => simp at h
  | cons a t ih =>
    by_cases hp : p a
    · simp only [List.dropWhile_cons, hp, if_true] at h
      exact List.mem_cons_of_mem _ (ih h)
    · simpa [List.dropWhile_cons, hp] using h

theorem mem_trimChars_imp {l : List Char} {c : Char}
    (h : c ∈ trimChars l) : c ∈ l := by
  unfold trimChars List.rdropWhile at h
  rw [List.mem_reverse] at h
  have h₂ := mem_dropWhile_imp h
  rw [List.mem_reverse] at h₂
  exact mem_dropWhile_imp h₂

theorem sanitizeChars_angle_free (l : List Char) :
    '<' ∉ sanitizeChars l ∧ '>' ∉ sanitizeChars l := by
  constructor <;>
  · intro hmem
    have h₂ := mem_trimChars_imp hmem
    have := (List.mem_filter.mp h₂).2
    simp at this

theorem trimChars_decomp (X : List Char) :
    X = List.rdropWhile (fun c => isWsChar c) X
          ++ (X.reverse.takeWhile (fun c => isWsChar c)).reverse := by
  rw [List.rdropWhile]
  conv_lhs =>
    rw [← List.reverse_reverse X,
      ← List.takeWhile_append_dropWhile (p := fun c => isWsChar c) (l := X.reverse)]
  rw [List.reverse_append]

theorem not_head_dropWhile {p : Char → Bool} {l : List Char} {b : Char}
    {t : List Char} (h : l.dropWhile p = b :: t) : ¬ p b := by
  induction l with
  | nil => simp at h
  | cons a as ih =>
    rw [List.dropWhile_cons] at h
    by_cases hp : p a
    · rw [if_pos hp] at h; exact ih h
    · rw [if_neg hp] at h
      injection h with h1 _
      rw [← h1]
      simp [hp]

theorem dropWhile_rdropWhile_dropWhile (l : List Char) :
    List.dropWhile (fun c => isWsChar c)
        (List.rdropWhile (fun c => isWsChar c) (List.dropWhile (fun c => isWsChar c) l))
      = List.rdropWhile (fun c => isWsChar c) (List.dropWhile (fun c => isWsChar c) l) := by
  set pw : Char → Bool := fun c => isWsChar c with hpw
  set X := List.dropWhile pw l with hX
  cases hB : List.rdropWhile pw X with
  | nil => simp
  | cons b bs =>
    have hxd : X = b :: (bs ++ (X.reverse.takeWhile pw).reverse) := by
      conv_lhs => rw [trimChars_decomp X]
      rw [hB]
      simp
    have hself : List.dropWhile pw X = X := by
      rw [hX, List.dropWhile_idempotent]
    have hb : ¬ pw b := not_head_dropWhile (hself.trans hxd)
    rw [List.dropWhile_cons]
    simp [hb]

theorem trimChars_idem (l : List Char) :
    trimChars (trimChars l) = trimChars l := by
  unfold trimChars
  rw [dropWhile_rdropWhile_dropWhile, List.rdropWhile_idempotent]

theorem scanStripAux_eq_self {m : List Char → Option Nat} {l : List Char}
    (h : anyMatch m l = false) :
    ∀ fuel, l.length ≤ fuel → scanStripAux m fuel l = l := by
  induction l with
  | nil => intro fuel _; cases fuel <;> rfl
  | cons c rest ih =>
    intro fuel hfuel
    cases fuel with
    | zero => simp at hfuel
    | succ f =>
      rw [anyMatch, Bool.or_eq_false_iff] at h
      have hm : m (c :: rest) = none := by
        cases hmm : m (c :: rest) with
        | none => rfl
        | some n => rw [hmm] at h; simp at h
      rw [scanStripAux, hm]
      have : rest.length ≤ f := by simpa using hfuel
      rw [ih h.2 f this]

theorem scanStrip_eq_self {m : List Char → Option Nat} {l : List Char}
    (h : anyMatch m l = false) : scanStrip m l = l :=
  scanStripAux_eq_self h l.length le_rfl

theorem asString_data (l : List Char) : (List.asString l).data = l := rfl

theorem data_asString (s : String) : (s.data).asString = s := rfl

theorem toList_eq_data (s : String) : s.toList = s.data := rfl

/-! ## Claim C1 and C2 theorems -/

/-- C1, counterexample.  The claim says no output of `sanitizeString`
contains `<`, `>` or a case-insensitive occurrence of "javascript:".  It
fails: in `"java<script:"` the script-tag pass and the `javascript:` pass
find nothing, and the final angle-bracket removal splices the forbidden
substring together, so the output is exactly `"javascript:"`. -/
theorem sanitizeString_output_contains_javascript :
    sanitizeString "java<script:" = "javascript:" := by decide

/-- C1, amended.  Every output of `sanitizeString` is free of the characters
`<` and `>` (the angle-bracket pass removes them all and trimming adds no
characters); the "no javascript: occurrence" clause of the original claim is
dropped, as the counterexample shows later passes can recreate it. -/
theorem sanitizeString_removes_angle_brackets (s : String) :
    '<' ∉ (sanitizeString s).data ∧ '>' ∉ (sanitizeString s).data :=
  sanitizeChars_angle_free s.toList

/-- C2, counterexample.  `sanitizeString` is not idempotent: sanitizing
`"java<script:"` yields `"javascript:"`, and sanitizing that again yields
the empty string. -/
theorem sanitizeString_not_idempotent :
    sanitizeString (sanitizeString "java<script:")
      ≠ sanitizeString "java<script:" := by decide

/-- C2, amended.  `sanitizeString` is idempotent on every input whose
sanitized form contains no residual removable pattern: if no suffix of the
output starts a script-tag match, a "javascript:" match or an
`on<word>=` handler match, then a second application returns the output
unchanged.  (In general idempotence fails, per the counterexample.) -/
theorem sanitizeString_idempotent_of_no_residual_patterns (s : String)
    (hScript : anyMatch matchScript (sanitizeString s).data = false)
    (hJS : anyMatch matchJS (sanitizeString s).data = false)
    (hOn : anyMatch matchOn (sanitizeString s).data = false) :
    sanitizeString (sanitizeString s) = sanitizeString s := by
  set t := sanitizeString s with ht
  have hdata : t.data = sanitizeChars s.toList := rfl
  have h1 : scanStrip matchScript t.data = t.data := scanStrip_eq_self hScript
  have h2 : scanStrip matchJS t.data = t.data := scanStrip_eq_self hJS
  have h3 : scanStrip matchOn t.data = t.data := scanStrip_eq_self hOn
  have h4 : List.filter (fun c => !(c = '<' || c = '>')) t.data = t.data := by
    rw [List.filter_eq_self]
    intro c hc
    rw [hdata] at hc
    have hang := sanitizeChars_angle_free s.toList
    have hlt : c ≠ '<' := fun he => hang.1 (he ▸ hc)
    have hgt : c ≠ '>' := fun he => hang.2 (he ▸ hc)
    simp [hlt, hgt]
  have htrim : trimChars t.data = t.data := by
    have hform : t.data = trimChars (List.filter (fun c => !(c = '<' || c = '>'))
        (scanStrip matchOn (scanStrip matchJS (scanStrip matchScript s.toList)))) := rfl
    rw [hform, trimChars_idem]
  have hchars : sanitizeChars t.data = t.data := by
    unfold sanitizeChars
    rw [h1, h2, h3, h4, htrim]
  have : sanitizeString t = (sanitizeChars t.data).asString := rfl
  rw [this, hchars]
  exact data_asString t

/-- C2, witness for the amended theorem at a concrete input. -/
theorem sanitizeString_idempotent_witness :
    sanitizeString (sanitizeString "hello world") = sanitizeString "hello world" :=
  sanitizeString_idempotent_of_no_residual_patterns "hello world"
    (by decide) (by decide) (by decide)

/-! ## Statistics lemmas -/

theorem foldl_add_eq {α : Type} (f : α → ℝ) (l : List α) (c : ℝ) :
    l.foldl (fun acc v => acc + f v) c = c + (l.map f).sum := by
  induction l generalizing c with
  | nil => simp
  | cons a t ih => simp [List.foldl_cons, ih, add_assoc]

theorem jsSum_eq (l : List ℝ) : jsSum l = l.sum := by
  have h := foldl_add_eq (fun v => v) l 0
  simpa [jsSum] using h

theorem jsSumSq_eq (l : List ℝ) : jsSumSq l = (l.map (fun v => v * v)).sum := by
  have h := foldl_add_eq (fun v => v * v) l 0
  simpa [jsSumSq] using h

theorem jsSumXY_eq (x y : List ℝ) :
    jsSumXY x y = ((x.zip y).map (fun p => p.1 * p.2)).sum := by
  have h := foldl_add_eq (fun p : ℝ × ℝ => p.1 * p.2) (x.zip y) 0
  simpa [jsSumXY] using h

theorem jsSumXY_comm (x y : List ℝ) : jsSumXY x y = jsSumXY y x := by
  induction x generalizing y with
  | nil => cases y <;> simp [jsSumXY]
  | cons a t ih =>
    cases y with
    | nil => simp [jsSumXY]
    | cons b u =>
      rw [jsSumXY_eq, jsSumXY_eq] at *
      simp only [List.zip_cons_cons, List.map_cons, List.sum_cons]
      rw [← jsSumXY_eq, ← jsSumXY_eq, ih u, mul_comm]

theorem jsSumXY_self (l : List ℝ) : jsSumXY l l = jsSumSq l := by
  induction l with
  | nil => simp [jsSumXY, jsSumSq]
  | cons a t ih =>
    rw [jsSumXY_eq, jsSumSq_eq] at *
    simp only [List.zip_cons_cons, List.map_cons, List.sum_cons]
    rw [ih]

theorem sum_sq_sub (t : List ℝ) (a : ℝ) :
    (t.map (fun v => (v - a) ^ 2)).sum
      = (t.length : ℝ) * a ^ 2 - 2 * a * t.sum + (t.map (fun v => v * v)).sum := by
  induction t with
  | nil => simp
  | cons b u ih =>
    simp only [List.map_cons, List.sum_cons, List.length_cons, ih]
    push_cast
    ring

theorem sum_mul_sq_sub_sq_nonneg (l : List ℝ) :
    0 ≤ (l.length : ℝ) * (l.map (fun v => v * v)).sum - l.sum * l.sum := by
  induction l with
  | nil => simp
  | cons a t ih =>
    have h2 : 0 ≤ (t.map (fun v => (v - a) ^ 2)).sum := by
      apply List.sum_nonneg
      intro v hv
      rw [List.mem_map] at hv
      obtain ⟨w, _, hw⟩ := hv
      rw [← hw]
      positivity
    rw [sum_sq_sub] at h2
    simp only [List.map_cons, List.sum_cons, List.length_cons]
    push_cast
    nlinarith [ih, h2]

theorem slopeDenominator_nonneg (x : List ℝ) : 0 ≤ slopeDenominator x := by
  rw [slopeDenominator, jsSumSq_eq, jsSum_eq]
  exact sum_mul_sq_sub_sq_nonneg x

theorem variance_scaled (l : List ℝ) (h : l ≠ []) :
    ((l.length : ℝ)) ^ 2 * listVariance l
      = (l.length : ℝ) * jsSumSq l - jsSum l * jsSum l := by
  have hn : (l.length : ℝ) ≠ 0 := by
    simp only [ne_eq, Nat.cast_eq_zero, List.length_eq_zero]
    exact h
  have hlv : listVariance l
      = (l.foldl (fun acc val => acc + (val - jsSum l / (l.length : ℝ)) ^ 2) 0)
        / (l.length : ℝ) := rfl
  rw [hlv, foldl_add_eq (fun val => (val - jsSum l / (l.length : ℝ)) ^ 2) l 0,
    zero_add, sum_sq_sub, jsSumSq_eq, jsSum_eq]
  field_simp
  ring

theorem listVariance_zero_of_short {l : List ℝ} (h : l.length < 2) :
    listVariance l = 0 := by
  match l, h with
  | [], _ => simp [listVariance, jsSum]
  | [a], _ =>
    simp only [listVariance, jsSum, List.foldl_cons, List.foldl_nil,
      List.length_cons, List.length_nil]
    norm_num

theorem foldl_min_le_init (t : List ℝ) (c : ℝ) : t.foldl min c ≤ c := by
  induction t generalizing c with
  | nil => simp
  | cons b u ih =>
    rw [List.foldl_cons]
    exact le_trans (ih (min c b)) (min_le_left c b)

theorem foldl_min_le_mem (t : List ℝ) (c x : ℝ) (h : x ∈ t) :
    t.foldl min c ≤ x := by
  induction t generalizing c with
  | nil => simp at h
  | cons b u ih =>
    rw [List.foldl_cons]
    rcases List.mem_cons.mp h with hb | hu
    · rw [hb]
      exact le_trans (foldl_min_le_init u (min c b)) (min_le_right c b)
    · exact ih (min c b) hu

theorem init_le_foldl_max (t : List ℝ) (c : ℝ) : c ≤ t.foldl max c := by
  induction t generalizing c with
  | nil => simp
  | cons b u ih =>
    rw [List.foldl_cons]
    exact le_trans (le_max_left c b) (ih (max c b))

theorem mem_le_foldl_max (t : List ℝ) (c x : ℝ) (h : x ∈ t) :
    x ≤ t.foldl max c := by
  induction t generalizing c with
  | nil => simp at h
  | cons b u ih =>
    rw [List.foldl_cons]
    rcases List.mem_cons.mp h with hb | hu
    · rw [hb]
      exact le_trans (le_max_right c b) (init_le_foldl_max u (max c b))
    · exact ih (max c b) hu

theorem length_insertAsc (a : ℝ) (l : List ℝ) :
    (insertAsc a l).length = l.length + 1 := by
  induction l with
  | nil => rfl
  | cons b t ih =>
    rw [insertAsc]
    by_cases h : a ≤ b
    · rw [if_pos h]; rfl
    · rw [if_neg h]
      simp [ih]

theorem length_sortAsc (l : List ℝ) : (sortAsc l).length = l.length := by
  induction l with
  | nil => rfl
  | cons a t ih =>
    rw [sortAsc, length_insertAsc, ih]
    rfl

theorem mem_insertAsc {a x : ℝ} {l : List ℝ} (h : x ∈ insertAsc a l) :
    x = a ∨ x ∈ l := by
  induction l with
  | nil =>
    rw [insertAsc] at h
    left
    simpa using h
  | cons b t ih =>
    rw [insertAsc] at h
    by_cases hab : a ≤ b
    · rw [if_pos hab] at h
      simpa using h
    · rw [if_neg hab] at h
      rcases List.mem_cons.mp h with hb | ht
      · right; rw [hb]; exact List.mem_cons_self b t
      · rcases ih ht with ha | ht2
        · left; exact ha
        · right; exact List.mem_cons_of_mem b ht2

theorem mem_sortAsc {x : ℝ} {l : List ℝ} (h : x ∈ sortAsc l) : x ∈ l := by
  induction l with
  | nil => exact h
  | cons a t ih =>
    rw [sortAsc] at h
    rcases mem_insertAsc h with ha | ht
    · rw [ha]; exact List.mem_cons_self a t
    · exact List.mem_cons_of_mem a (ih ht)

/-! ## Claim C7: Pearson correlation properties -/

/-- C7.  Pearson correlation is symmetric for equal-length sequences of
length at least 2; it returns 0 (not an error value) whenever either input
has zero population variance; and the self-correlation is exactly 1
whenever the variance is nonzero. -/
theorem pearson_properties :
    (∀ x y : List ℝ, x.length = y.length → 2 ≤ x.length →
        calculatePearsonCorrelation x y = calculatePearsonCorrelation y x)
    ∧ (∀ x y : List ℝ, listVariance x = 0 ∨ listVariance y = 0 →
        calculatePearsonCorrelation x y = 0)
    ∧ (∀ x : List ℝ, listVariance x ≠ 0 →
        calculatePearsonCorrelation x x = 1) := by
  refine ⟨?_, ?_, ?_⟩
  · intro x y hlen h2
    have hg1 : ¬(x.length ≠ y.length ∨ x.length < 2) := by omega
    have hg2 : ¬(y.length ≠ x.length ∨ y.length < 2) := by omega
    conv_lhs => rw [calculatePearsonCorrelation, if_neg hg1]
    conv_rhs => rw [calculatePearsonCorrelation, if_neg hg2]
    rw [hlen, jsSumXY_comm x y, mul_comm (jsSum x) (jsSum y),
      mul_comm ((y.length : ℝ) * jsSumSq x - jsSum x * jsSum x)
        ((y.length : ℝ) * jsSumSq y - jsSum y * jsSum y)]
  · intro x y h
    by_cases hg : x.length ≠ y.length ∨ x.length < 2
    · rw [calculatePearsonCorrelation, if_pos hg]
    · push_neg at hg
      obtain ⟨hlen, h2⟩ := hg
      have hg3 : ¬(x.length ≠ y.length ∨ x.length < 2) := by omega
      conv_lhs => rw [calculatePearsonCorrelation, if_neg hg3]
      have hprod : ((x.length : ℝ) * jsSumSq x - jsSum x * jsSum x)
          * ((x.length : ℝ) * jsSumSq y - jsSum y * jsSum y) = 0 := by
        rcases h with hx | hy
        · have hne : x ≠ [] := by
            intro hnil; rw [hnil] at h2; simp at h2
          have := variance_scaled x hne
          rw [hx, mul_zero] at this
          rw [← this, zero_mul]
        · have hne : y ≠ [] := by
            intro hnil
            rw [hnil] at hlen
            simp only [List.length_nil] at hlen
            omega
          have := variance_scaled y hne
          rw [hy, mul_zero] at this
          rw [hlen, ← this, mul_zero]
      rw [hprod, Real.sqrt_zero, if_pos rfl]
  · intro x hvar
    have h2 : 2 ≤ x.length := by
      by_contra hcon
      push_neg at hcon
      exact hvar (listVariance_zero_of_short hcon)
    have hne : x ≠ [] := by
      intro hnil; rw [hnil] at h2; simp at h2
    have hD0 : (x.length : ℝ) * jsSumSq x - jsSum x * jsSum x ≠ 0 := by
      intro hzero
      have hv := variance_scaled x hne
      rw [hzero] at hv
      have hn : ((x.length : ℝ)) ^ 2 ≠ 0 := by
        have : (x.length : ℝ) ≠ 0 := by
          simp only [ne_eq, Nat.cast_eq_zero, List.length_eq_zero]
          exact hne
        positivity
      exact hvar (by
        have := mul_eq_zero.mp hv
        tauto)
    have hDpos : 0 ≤ (x.length : ℝ) * jsSumSq x - jsSum x * jsSum x := by
      have := slopeDenominator_nonneg x
      rwa [slopeDenominator] at this
    have hsqrt : Real.sqrt (((x.length : ℝ) * jsSumSq x - jsSum x * jsSum x)
        * ((x.length : ℝ) * jsSumSq x - jsSum x * jsSum x))
        = (x.length : ℝ) * jsSumSq x - jsSum x * jsSum x :=
      Real.sqrt_mul_self hDpos
    have hg : ¬(x.length ≠ x.length ∨ x.length < 2) := by omega
    conv_lhs => rw [calculatePearsonCorrelation, if_neg hg, jsSumXY_self,
      hsqrt, if_neg hD0]
    exact div_self hD0

/-- C7, witness: the three parts of `pearson_properties` applied at concrete
inputs, with every hypothesis discharged by evaluation. -/
theorem pearson_properties_witness :
    calculatePearsonCorrelation [1, 2] [3, 5] = calculatePearsonCorrelation [3, 5] [1, 2]
    ∧ calculatePearsonCorrelation [1, 1] [0, 1] = 0
    ∧ calculatePearsonCorrelation [0, 1] [0, 1] = 1 := by
  refine ⟨pearson_properties.1 [1, 2] [3, 5] (by simp) (by simp),
    pearson_properties.2.1 [1, 1] [0, 1] (Or.inl ?_),
    pearson_properties.2.2 [0, 1] ?_⟩
  · show listVariance [1, 1] = 0
    simp only [listVariance, jsSum, List.foldl_cons, List.foldl_nil,
      List.length_cons, List.length_nil]
    norm_num
  · show listVariance [0, 1] ≠ 0
    simp only [listVariance, jsSum, List.foldl_cons, List.foldl_nil,
      List.length_cons, List.length_nil]
    norm_num

/-! ## Claim C8: min-max normalization bounds -/

/-- C8.  Every element of `normalizeMinMax values` lies in the interval
`[0, 100]`, and a zero-range input (fold max equals fold min, i.e. all
values equal) maps every element to 0. -/
theorem normalizeMinMax_bounds :
    (∀ values : List ℝ, ∀ v ∈ normalizeMinMax values, 0 ≤ v ∧ v ≤ 100)
    ∧ (∀ (c : ℝ) (rest : List ℝ), rest.foldl max c = rest.foldl min c →
        normalizeMinMax (c :: rest) = (c :: rest).map (fun _ => 0)) := by
  constructor
  · intro values v hv
    match values with
    | [] => simp [normalizeMinMax] at hv
    | c :: rest =>
      simp only [normalizeMinMax] at hv
      by_cases hr : rest.foldl max c - rest.foldl min c = 0
      · rw [if_pos hr] at hv
        rw [List.mem_map] at hv
        obtain ⟨x, _, hxv⟩ := hv
        rw [← hxv]
        norm_num
      · rw [if_neg hr] at hv
        rw [List.mem_map] at hv
        obtain ⟨x, hx, hxv⟩ := hv
        have hminle : rest.foldl min c ≤ x := by
          rcases List.mem_cons.mp hx with hc | hrest
          · rw [hc]; exact foldl_min_le_init rest c
          · exact foldl_min_le_mem rest c x hrest
        have hmaxge : x ≤ rest.foldl max c := by
          rcases List.mem_cons.mp hx with hc | hrest
          · rw [hc]; exact init_le_foldl_max rest c
          · exact mem_le_foldl_max rest c x hrest
        have hle : rest.foldl min c ≤ rest.foldl max c :=
          le_trans (foldl_min_le_init rest c) (init_le_foldl_max rest c)
        have hpos : 0 < rest.foldl max c - rest.foldl min c := by
          rcases lt_or_eq_of_le hle with hlt | heq
          · linarith
          · exact absurd (by linarith) hr
        rw [← hxv]
        constructor
        · apply mul_nonneg _ (by norm_num : (0 : ℝ) ≤ 100)
          exact div_nonneg (by linarith) (le_of_lt hpos)
        · have hd1 : (x - rest.foldl min c) / (rest.foldl max c - rest.foldl min c) ≤ 1 :=
            (div_le_one hpos).mpr (by linarith)
          calc (x - rest.foldl min c) / (rest.foldl max c - rest.foldl min c) * 100
              ≤ 1 * 100 := by
                exact mul_le_mul_of_nonneg_right hd1 (by norm_num)
            _ = 100 := one_mul 100
  · intro c rest h
    simp only [normalizeMinMax]
    rw [if_pos (by rw [h, sub_self])]

/-- C8, witness: both parts of `normalizeMinMax_bounds` applied at concrete
inputs with the hypotheses evaluated. -/
theorem normalizeMinMax_bounds_witness :
    ((0 : ℝ) ≤ 100 ∧ (100 : ℝ) ≤ 100)
    ∧ normalizeMinMax [2, 2] = ([2, 2] : List ℝ).map (fun _ => 0) := by
  refine ⟨normalizeMinMax_bounds.1 [1, 3] 100 ?_, normalizeMinMax_bounds.2 2 [2] ?_⟩
  · norm_num [normalizeMinMax, min_def, max_def]
  · simp

/-! ## Claim C9: descriptive statistics -/

theorem getD_mem_of_lt {l : List ℝ} {i : Nat} (h : i < l.length) (d : ℝ) :
    l.getD i d ∈ l := by
  induction l generalizing i with
  | nil => simp at h
  | cons a t ih =>
    cases i with
    | zero => simp [List.getD]
    | succ j =>
      rw [List.getD_cons_succ]
      exact List.mem_cons_of_mem a (ih (by simpa using h) )

/-- C9.  `calculateStatistics` returns no result for the empty list; its
quartile fields index the ascending sort, so they are always elements of the
input (no interpolation); and `describe([1,2,3,4])` yields mean 5/2,
median 3, q1 = 2, q3 = 4, min 1, max 4, count 4 and population standard
deviation √(5/4) ≈ 1.118. -/
theorem calculateStatistics_spec :
    calculateStatistics ([] : List ℝ) = none
    ∧ (∀ values : List ℝ, values ≠ [] →
        ∃ st, calculateStatistics values = some st
          ∧ st.q1 ∈ values ∧ st.median ∈ values ∧ st.q3 ∈ values)
    ∧ calculateStatistics [1, 2, 3, 4] = some {
        mean := 5 / 2
        median := 3
        stdDev := Real.sqrt (5 / 4)
        q1 := 2
        q3 := 4
        min := 1
        max := 4
        count := 4 } := by
  refine ⟨by rw [calculateStatistics]; simp, ?_, ?_⟩
  · intro values hne
    have hn0 : ¬ values.length = 0 := fun h => hne (List.length_eq_zero.mp h)
    have hpos : 0 < values.length := Nat.pos_of_ne_zero hn0
    have hlen : (sortAsc values).length = values.length := length_sortAsc values
    refine ⟨_, by rw [calculateStatistics, if_neg hn0], ?_, ?_, ?_⟩
    · exact mem_sortAsc (getD_mem_of_lt (by rw [hlen]; omega) 0)
    · exact mem_sortAsc (getD_mem_of_lt (by rw [hlen]; omega) 0)
    · exact mem_sortAsc (getD_mem_of_lt (by rw [hlen]; omega) 0)
  · have hsort : sortAsc [1, 2, 3, 4] = ([1, 2, 3, 4] : List ℝ) := by
      norm_num [sortAsc, insertAsc]
    have hvar : listVariance [1, 2, 3, 4] = 5 / 4 := by
      simp only [listVariance, jsSum, List.foldl_cons, List.foldl_nil,
        List.length_cons, List.length_nil]
      norm_num
    rw [calculateStatistics, if_neg (by norm_num)]
    simp only [hsort, hvar, List.length_cons, List.length_nil]
    norm_num [List.getD, jsSum]

/-- C9, witness for the universal part at a concrete input. -/
theorem calculateStatistics_witness :
    ∃ st, calculateStatistics [(5 : ℝ)] = some st
      ∧ st.q1 ∈ [(5 : ℝ)] ∧ st.median ∈ [(5 : ℝ)] ∧ st.q3 ∈ [(5 : ℝ)] :=
  calculateStatistics_spec.2.1 [5] (by simp)

/-! ## Claim C10: regression slope divides by zero on constant input -/

theorem zip_replicate_sum (c : ℝ) (y : List ℝ) :
    (((List.replicate y.length c).zip y).map (fun p => p.1 * p.2)).sum
      = c * y.sum := by
  induction y with
  | nil => simp
  | cons b u ih =>
    simp only [List.length_cons, List.replicate_succ, List.zip_cons_cons,
      List.map_cons, List.sum_cons, ih]
    ring

/-- C10.  For equal-length inputs of length at least 2 whose `x` sequence is
constant, the divisor of the slope computation in
`calculateLinearRegression` is exactly 0 and so is the dividend (so the JS
division produces `0/0 = NaN`, not a finite number), while
`calculatePearsonCorrelation` on the same input takes its zero-denominator
guard and returns 0 — the guard has no counterpart in the regression. -/
theorem regression_constant_zero_denominator (c : ℝ) (x y : List ℝ)
    (h2 : 2 ≤ x.length) (hlen : x.length = y.length)
    (hconst : ∀ a ∈ x, a = c) :
    slopeDenominator x = 0 ∧ slopeNumerator x y = 0
      ∧ calculatePearsonCorrelation x y = 0 := by
  have hrep : x = List.replicate x.length c := List.eq_replicate_of_mem hconst
  have hsum : jsSum x = (x.length : ℝ) * c := by
    rw [jsSum_eq]
    conv_lhs => rw [hrep]
    rw [List.sum_replicate, nsmul_eq_mul]
  have hsumsq : jsSumSq x = (x.length : ℝ) * (c * c) := by
    rw [jsSumSq_eq]
    conv_lhs => rw [hrep]
    rw [List.map_replicate, List.sum_replicate, nsmul_eq_mul]
  have hsumxy : jsSumXY x y = c * jsSum y := by
    rw [jsSumXY_eq, jsSum_eq]
    conv_lhs => rw [hrep, hlen]
    exact zip_replicate_sum c y
  have hD : slopeDenominator x = 0 := by
    rw [slopeDenominator, hsum, hsumsq]; ring
  have hN : slopeNumerator x y = 0 := by
    rw [slopeNumerator, hsum, hsumxy]; ring
  refine ⟨hD, hN, ?_⟩
  have hg : ¬(x.length ≠ y.length ∨ x.length < 2) := by omega
  have hD' : (x.length : ℝ) * jsSumSq x - jsSum x * jsSum x = 0 := by
    rw [← slopeDenominator]; exact hD
  conv_lhs => rw [calculatePearsonCorrelation, if_neg hg, hD', zero_mul,
    Real.sqrt_zero, if_pos rfl]

/-- C10, witness at a concrete constant input. -/
theorem regression_constant_witness :
    slopeDenominator [7, 7] = 0 ∧ slopeNumerator [7, 7] [1, 2] = 0
      ∧ calculatePearsonCorrelation [7, 7] [1, 2] = 0 :=
  regression_constant_zero_denominator 7 [7, 7] [1, 2] (by simp) (by simp)
    (by intro a ha; simpa using ha)

/-! ## Lemmas: headers that sanitize to empty -/

theorem trimChars_eq_nil_iff (l : List Char) :
    trimChars l = [] ↔ ∀ c ∈ l, isWsChar c := by
  rw [trimChars, List.rdropWhile_eq_nil_iff]
  constructor
  · intro h c hc
    have hl : l.takeWhile (fun c => isWsChar c) ++ l.dropWhile (fun c => isWsChar c) = l :=
      List.takeWhile_append_dropWhile (fun c => isWsChar c) l
    rw [← hl] at hc
    rcases List.mem_append.mp hc with h1 | h2
    · exact List.mem_takeWhile_imp h1
    · exact h _ h2
  · intro h c hc
    exact h c (mem_dropWhile_imp hc)

theorem jsTrimStr_empty_data {h : String} (ht : jsTrimStr h = "") :
    trimChars h.data = [] := by
  have h1 : (trimChars h.data).asString = "" := ht
  have h2 := congrArg String.data h1
  simpa using h2

theorem wsChar_not_special {c : Char} (h : isWsChar c = true) :
    c ≠ '<' ∧ c ≠ '>' ∧ c ≠ 'j' ∧ c ≠ 'J' ∧ c ≠ 'o' ∧ c ≠ 'O' := by
  rw [isWsChar] at h
  simp only [Bool.or_eq_true, decide_eq_true_eq] at h
  rcases h with ((((h | h) | h) | h) | h) | h <;> subst h <;>
    exact ⟨by decide, by decide, by decide, by decide, by decide, by decide⟩

theorem matchScript_none {c : Char} (rest : List Char) (h : c ≠ '<') :
    matchScript (c :: rest) = none := by
  simp [matchScript, h]

theorem matchJS_none {c : Char} (rest : List Char) (h1 : c ≠ 'j') (h2 : c ≠ 'J') :
    matchJS (c :: rest) = none := by
  simp [matchJS, prefixCI, patJavascript, h1, h2]

theorem matchOn_none {c : Char} (rest : List Char) (h1 : c ≠ 'o') (h2 : c ≠ 'O') :
    matchOn (c :: rest) = none := by
  cases rest with
  | nil => rfl
  | cons c₂ r => simp [matchOn, h1, h2]

theorem anyMatch_matchScript_false {l : List Char} (h : ∀ c ∈ l, c ≠ '<') :
    anyMatch matchScript l = false := by
  induction l with
  | nil => rfl
  | cons c rest ih =>
    rw [anyMatch, matchScript_none rest (h c (List.mem_cons_self _ _)),
      ih (fun x hx => h x (List.mem_cons_of_mem _ hx))]
    rfl

theorem anyMatch_matchJS_false {l : List Char}
    (h : ∀ c ∈ l, c ≠ 'j' ∧ c ≠ 'J') : anyMatch matchJS l = false := by
  induction l with
  | nil => rfl
  | cons c rest ih =>
    rw [anyMatch,
      matchJS_none rest (h c (List.mem_cons_self _ _)).1 (h c (List.mem_cons_self _ _)).2,
      ih (fun x hx => h x (List.mem_cons_of_mem _ hx))]
    rfl

theorem anyMatch_matchOn_false {l : List Char}
    (h : ∀ c ∈ l, c ≠ 'o' ∧ c ≠ 'O') : anyMatch matchOn l = false := by
  induction l with
  | nil => rfl
  | cons c rest ih =>
    rw [anyMatch,
      matchOn_none rest (h c (List.mem_cons_self _ _)).1 (h c (List.mem_cons_self _ _)).2,
      ih (fun x hx => h x (List.mem_cons_of_mem _ hx))]
    rfl

theorem sanitizeString_eq_trim {s : String}
    (h : ∀ c ∈ s.data, c ≠ '<' ∧ c ≠ '>' ∧ c ≠ 'j' ∧ c ≠ 'J' ∧ c ≠ 'o' ∧ c ≠ 'O') :
    sanitizeString s = jsTrimStr s := by
  have h1 : scanStrip matchScript s.data = s.data :=
    scanStrip_eq_self (anyMatch_matchScript_false (fun c hc => (h c hc).1))
  have h2 : scanStrip matchJS s.data = s.data :=
    scanStrip_eq_self (anyMatch_matchJS_false
      (fun c hc => ⟨(h c hc).2.2.1, (h c hc).2.2.2.1⟩))
  have h3 : scanStrip matchOn s.data = s.data :=
    scanStrip_eq_self (anyMatch_matchOn_false
      (fun c hc => ⟨(h c hc).2.2.2.2.1, (h c hc).2.2.2.2.2⟩))
  have h4 : List.filter (fun c => !(c = '<' || c = '>')) s.data = s.data :=
    List.filter_eq_self.mpr (fun c hc => by
      have := h c hc
      simp [this.1, this.2.1])
  show (sanitizeChars s.data).asString = jsTrimStr s
  rw [sanitizeChars, h1, h2, h3, h4]
  rfl

theorem sanitize_empty_of_trim_empty {h : String} (ht : jsTrimStr h = "") :
    sanitizeString h = "" := by
  have hnil : trimChars h.data = [] := jsTrimStr_empty_data ht
  have hws : ∀ c ∈ h.data, isWsChar c := (trimChars_eq_nil_iff h.data).mp hnil
  rw [sanitizeString_eq_trim (fun c hc => wsChar_not_special (hws c hc)), ht]

theorem sanitize_ne_guards {h : String} (hne : sanitizeString h ≠ "") :
    ¬(h = "" ∨ jsTrimStr h = "") := by
  rintro (he | ht)
  · exact hne (by rw [he]; rfl)
  · exact hne (sanitize_empty_of_trim_empty ht)

/-! ## Lemmas: objects and the row fold -/

theorem objGet_objSet (o : Obj) (k : String) (v : JsValue) (k' : String) :
    objGet (objSet o k v) k' = if k = k' then some v else objGet o k' := by
  induction o with
  | nil =>
    by_cases h : k = k' <;> simp [objSet, objGet, h]
  | cons p t ih =>
    obtain ⟨k₀, v₀⟩ := p
    simp only [objSet]
    by_cases h0 : k₀ = k
    · subst h0
      rw [if_pos rfl]
      by_cases h : k₀ = k' <;> simp [objGet, h]
    · rw [if_neg h0]
      simp only [objGet, ih]
      by_cases h1 : k₀ = k' <;> by_cases h2 : k = k'
      · exact absurd (h1.trans h2.symm) h0
      · simp [h1, h2]
      · simp [h1, h2]
      · simp [h1, h2]

theorem objKeys_objSet (o : Obj) (k : String) (v : JsValue) :
    objKeys (objSet o k v)
      = if k ∈ objKeys o then objKeys o else objKeys o ++ [k] := by
  induction o with
  | nil => simp [objSet, objKeys]
  | cons p t ih =>
    obtain ⟨k₀, v₀⟩ := p
    simp only [objSet]
    by_cases h0 : k₀ = k
    · subst h0
      rw [if_pos rfl]
      simp [objKeys]
    · rw [if_neg h0]
      simp only [objKeys, List.map_cons] at ih ⊢
      rw [ih]
      by_cases h1 : k ∈ List.map (fun p => p.1) t
      · rw [if_pos h1, if_pos (by simp [h1])]
      · rw [if_neg h1, if_neg (by
          simp only [List.mem_cons]
          rintro (he | hm)
          · exact h0 he.symm
          · exact h1 hm)]
        exact (List.cons_append _ _ _).symm

theorem mem_objSet {p : String × JsValue} {o : Obj} {k : String} {v : JsValue}
    (h : p ∈ objSet o k v) : p = (k, v) ∨ p ∈ o := by
  induction o with
  | nil =>
    simp only [objSet] at h
    left
    simpa using h
  | cons q t ih =>
    obtain ⟨k₀, v₀⟩ := q
    simp only [objSet] at h
    by_cases h0 : k₀ = k
    · rw [if_pos h0] at h
      rcases List.mem_cons.mp h with hp | hp
      · exact Or.inl hp
      · exact Or.inr (List.mem_cons_of_mem _ hp)
    · rw [if_neg h0] at h
      rcases List.mem_cons.mp h with hp | hp
      · exact Or.inr (by rw [hp]; exact List.mem_cons_self _ _)
      · rcases ih hp with hp2 | hp2
        · exact Or.inl hp2
        · exact Or.inr (List.mem_cons_of_mem _ hp2)

theorem objGet_buildRowAux (row : List Cell) :
    ∀ (hs : List String) (i : Nat) (acc : Obj) (k : String),
      objGet (buildRowAux row hs i acc) k
        = (pendingValue row hs i k <|> objGet acc k) := by
  intro hs
  induction hs with
  | nil => intro i acc k; rfl
  | cons h t ih =>
    intro i acc k
    rw [buildRowAux, ih (i + 1) (processHeader row acc i h) k]
    cases hpv : pendingValue row t (i + 1) k with
    | some v =>
      rw [show pendingValue row (h :: t) i k = some v by rw [pendingValue, hpv]]
      simp
    | none =>
      rw [show pendingValue row (h :: t) i k
          = (if ¬(h = "" ∨ jsTrimStr h = "") ∧ sanitizeString h ≠ ""
                ∧ sanitizeString h = k
             then some (cellValue row i k) else none) by rw [pendingValue, hpv],
        Option.none_orElse, processHeader]
      by_cases hg1 : h = "" ∨ jsTrimStr h = ""
      · rw [if_pos hg1, if_neg (by tauto), Option.none_orElse]
      · rw [if_neg hg1]
        by_cases hg2 : sanitizeString h = ""
        · rw [if_pos hg2, if_neg (by tauto), Option.none_orElse]
        · rw [if_neg hg2, objGet_objSet]
          by_cases hk : sanitizeString h = k
          · rw [if_pos hk, if_pos ⟨hg1, hg2, hk⟩, hk]
            simp
          · rw [if_neg hk, if_neg (by tauto), Option.none_orElse]

theorem pendingValue_none (row : List Cell) :
    ∀ (hs : List String) (k : String) (i : Nat),
      (∀ x ∈ hs, sanitizeString x ≠ k) → pendingValue row hs i k = none := by
  intro hs
  induction hs with
  | nil => intro k i _; rfl
  | cons h₀ t ih =>
    intro k i h
    rw [pendingValue, ih k (i + 1) (fun x hx => h x (List.mem_cons_of_mem _ hx))]
    exact if_neg (fun hc => h h₀ (List.mem_cons_self _ _) hc.2.2)

theorem pendingValue_isSome (row : List Cell) :
    ∀ (hs : List String) (h : String) (i : Nat), h ∈ hs →
      sanitizeString h ≠ "" →
      (pendingValue row hs i (sanitizeString h)).isSome = true := by
  intro hs
  induction hs with
  | nil => intro h i hmem; exact absurd hmem (List.not_mem_nil h)
  | cons h₀ t ih =>
    intro h i hmem hne
    rw [pendingValue]
    cases hpv : pendingValue row t (i + 1) (sanitizeString h) with
    | some v => rfl
    | none =>
      rcases List.mem_cons.mp hmem with h0 | hmemt
      · rw [if_pos ⟨sanitize_ne_guards (h0 ▸ hne), h0 ▸ hne, by rw [h0]⟩]
        rfl
      · have := ih h (i + 1) hmemt hne
        rw [hpv] at this
        simp at this

theorem pendingValue_append (row : List Cell) (h : String)
    (hk : sanitizeString h ≠ "") :
    ∀ (pre post : List String) (i : Nat),
      (∀ x ∈ post, sanitizeString x ≠ sanitizeString h) →
      pendingValue row (pre ++ h :: post) i (sanitizeString h)
        = some (cellValue row (i + pre.length) (sanitizeString h)) := by
  intro pre
  induction pre with
  | nil =>
    intro post i hpost
    rw [List.nil_append, pendingValue,
      pendingValue_none row post (sanitizeString h) (i + 1) hpost,
      if_pos ⟨sanitize_ne_guards hk, hk, rfl⟩]
    simp
  | cons p pre' ih =>
    intro post i hpost
    rw [List.cons_append, pendingValue, ih post (i + 1) hpost]
    have harith : i + 1 + pre'.length = i + (p :: pre').length := by
      simp only [List.length_cons]
      omega
    rw [harith]

theorem objKeys_processHeader (row : List Cell) (acc : Obj) (i : Nat) (h : String) :
    objKeys (processHeader row acc i h) = stepKeys (objKeys acc) h := by
  rw [processHeader, stepKeys]
  by_cases hg1 : h = "" ∨ jsTrimStr h = ""
  · rw [if_pos hg1]
    have hs0 : sanitizeString h = "" := by
      rcases hg1 with he | ht
      · rw [he]; rfl
      · exact sanitize_empty_of_trim_empty ht
    rw [if_pos hs0]
  · rw [if_neg hg1]
    by_cases hg2 : sanitizeString h = ""
    · rw [if_pos hg2, if_pos hg2]
    · rw [if_neg hg2, if_neg hg2, objKeys_objSet]

theorem objKeys_buildRowAux (row : List Cell) :
    ∀ (hs : List String) (i : Nat) (acc : Obj),
      objKeys (buildRowAux row hs i acc) = hs.foldl stepKeys (objKeys acc) := by
  intro hs
  induction hs with
  | nil => intro i acc; rfl
  | cons h t ih =>
    intro i acc
    rw [buildRowAux, ih, List.foldl_cons, objKeys_processHeader]

theorem objKeys_buildRow (row : List Cell) (hs : List String) :
    objKeys (buildRow row hs) = recordKeys hs := by
  rw [buildRow, objKeys_buildRowAux]
  rfl

theorem cellValue_skip {row : List Cell} {idx : Nat} {k : String}
    (h : skipValue (row.getD idx Cell.undef) = true) :
    cellValue row idx k = JsValue.vnull := by
  simp only [cellValue]
  rw [if_pos h]

theorem cellValue_vstr_ne {row : List Cell} {idx : Nat} {k : String} {s : String}
    (h : cellValue row idx k = JsValue.vstr s) : s ≠ "" := by
  simp only [cellValue] at h
  by_cases h1 : skipValue (row.getD idx Cell.undef) = true
  · rw [if_pos h1] at h
    exact absurd h (by simp)
  · rw [if_neg h1] at h
    by_cases h2 : isUrlHeader k = true
    · rw [if_pos h2] at h
      by_cases hu : validateUrl (jsCellToString (row.getD idx Cell.undef)) = ""
      · rw [if_pos hu] at h
        exact absurd h (by simp)
      · rw [if_neg hu] at h
        injection h with hs
        rw [← hs]
        exact hu
    · rw [if_neg h2] at h
      by_cases h3 : isNumericCell (row.getD idx Cell.undef) = true
      · rw [if_pos h3] at h
        exact absurd h (by simp)
      · rw [if_neg h3] at h
        by_cases ht : sanitizeCell (row.getD idx Cell.undef) = ""
        · rw [if_pos ht] at h
          exact absurd h (by simp)
        · rw [if_neg ht] at h
          injection h with hs
          rw [← hs]
          exact ht

theorem buildRowAux_vstr_ne (row : List Cell) :
    ∀ (hs : List String) (i : Nat) (acc : Obj),
      (∀ p ∈ acc, ∀ s : String, p.2 = JsValue.vstr s → s ≠ "") →
      ∀ p ∈ buildRowAux row hs i acc, ∀ s : String,
        p.2 = JsValue.vstr s → s ≠ "" := by
  intro hs
  induction hs with
  | nil => intro i acc hacc; exact hacc
  | cons h t ih =>
    intro i acc hacc
    rw [buildRowAux]
    apply ih
    intro p hp s hps
    simp only [processHeader] at hp
    by_cases hg1 : h = "" ∨ jsTrimStr h = ""
    · rw [if_pos hg1] at hp
      exact hacc p hp s hps
    · rw [if_neg hg1] at hp
      by_cases hg2 : sanitizeString h = ""
      · rw [if_pos hg2] at hp
        exact hacc p hp s hps
      · rw [if_neg hg2] at hp
        rcases mem_objSet hp with hpv | hpo
        · rw [hpv] at hps
          exact cellValue_vstr_ne hps
        · exact hacc p hpo s hps

/-! ## Claim C3: record key stability -/

/-- C3, counterexample.  The claim asserts that a retained header whose raw
cell is skipped (here: `undefined`) yields the key with value `null`.  With
two columns sharing the sanitized header `"Brand"`, the second column's
value overwrites the first column's `null`, so the key holds `"x"`. -/
theorem record_skip_overwritten_by_duplicate :
    validateAndSanitizeRow [Cell.undef, Cell.str "x"] ["Brand", "Brand"]
      = some [("Brand", JsValue.vstr "x")]
    ∧ skipValue Cell.undef = true := by decide

/-- C3, amended.  (a) Every retained header (one that does not sanitize to
empty) contributes its sanitized key to the mapped record; (b) when the raw
cell of a retained header is skipped and no later header produces the same
sanitized key, that key holds `null` (a later duplicate column would
overwrite it); (c) the key sequence of a mapped record depends only on the
header row, so all records built against one header row expose the same
keys. -/
theorem record_key_stability :
    (∀ (row : List Cell) (hs : List String) (h : String),
        h ∈ hs → sanitizeString h ≠ "" →
        (objGet (buildRow row hs) (sanitizeString h)).isSome = true)
    ∧ (∀ (row : List Cell) (pre : List String) (h : String) (post : List String),
        sanitizeString h ≠ "" →
        (∀ x ∈ post, sanitizeString x ≠ sanitizeString h) →
        skipValue (row.getD pre.length Cell.undef) = true →
        objGet (buildRow row (pre ++ h :: post)) (sanitizeString h)
          = some JsValue.vnull)
    ∧ (∀ (row row' : List Cell) (hs : List String),
        objKeys (buildRow row hs) = objKeys (buildRow row' hs)) := by
  refine ⟨?_, ?_, ?_⟩
  · intro row hs h hmem hne
    rw [buildRow, objGet_buildRowAux]
    cases hpv : pendingValue row hs 0 (sanitizeString h) with
    | some v => simp
    | none =>
      have := pendingValue_isSome row hs h 0 hmem hne
      rw [hpv] at this
      simp at this
  · intro row pre h post hne hpost hskip
    rw [buildRow, objGet_buildRowAux, pendingValue_append row h hne pre post 0 hpost,
      Option.some_orElse, Nat.zero_add, cellValue_skip hskip]
  · intro row row' hs
    rw [objKeys_buildRow, objKeys_buildRow]

/-- C3, witness for the amended theorem at concrete inputs. -/
theorem record_key_stability_witness :
    (objGet (buildRow [Cell.str "Acme", Cell.undef] ["Brand", "Note"])
        (sanitizeString "Note")).isSome = true
    ∧ objGet (buildRow [Cell.str "Acme", Cell.undef] (["Brand"] ++ "Note" :: []))
        (sanitizeString "Note") = some JsValue.vnull
    ∧ objKeys (buildRow [Cell.str "Acme"] ["Brand", "Note"])
        = objKeys (buildRow [Cell.str "B"] ["Brand", "Note"]) :=
  ⟨record_key_stability.1 [Cell.str "Acme", Cell.undef] ["Brand", "Note"] "Note"
      (by decide) (by decide),
   record_key_stability.2.1 [Cell.str "Acme", Cell.undef] ["Brand"] "Note" []
      (by decide) (by intro x hx; exact absurd hx (List.not_mem_nil x)) (by decide),
   record_key_stability.2.2 [Cell.str "Acme"] [Cell.str "B"] ["Brand", "Note"]⟩

/-! ## Claim C4: the 1000-character bound -/

set_option maxRecDepth 100000 in
/-- C4, counterexample.  A sanitized string of 1001 characters is stored
verbatim in the record, not as `null`: the `<= 1000` length check of the
flexible mapper only feeds the unused `hasValidData` flag. -/
theorem long_string_stored_verbatim :
    validateAndSanitizeRow [Cell.str "Acme", Cell.str longA] ["Brand", "Desc"]
      = some [("Brand", JsValue.vstr "Acme"), ("Desc", JsValue.vstr longA)]
    ∧ 1000 < longA.length := by decide

/-- C4, amended.  What survives of the claim: a sanitized string that is
empty is stored as `null`, never as the empty string — equivalently, no
string-valued field of a mapped record is empty.  The length bound does not
hold (see the counterexample). -/
theorem stored_strings_nonempty (row : List Cell) (hs : List String) (rec : Obj)
    (k s : String) (hrec : validateAndSanitizeRow row hs = some rec)
    (hmem : (k, JsValue.vstr s) ∈ rec) : s ≠ "" := by
  have hbuild : rec = buildRow row hs := by
    simp only [validateAndSanitizeRow] at hrec
    split_ifs at hrec
    exact (Option.some.inj hrec).symm
  rw [hbuild] at hmem
  exact buildRowAux_vstr_ne row hs 0 [] (by intro p hp; simp at hp)
    (k, JsValue.vstr s) hmem s rfl

/-- C4, witness for the amended theorem at a concrete accepted row. -/
theorem stored_strings_nonempty_witness : ("Acme" : String) ≠ "" :=
  stored_strings_nonempty [Cell.str "Acme"] ["Brand"]
    [("Brand", JsValue.vstr "Acme")] "Brand" "Acme" (by decide) (by decide)

/-! ## Claim C5: row acceptance -/

/-- C5, counterexample.  A raw row with six retained headers and no cell at
all is accepted: all six keys are `null`, no identifying column is even
present, and zero fields are populated — the source counts keys
(`Object.keys(...).length > 5`), not populated fields. -/
theorem row_accepted_without_populated_fields :
    validateAndSanitizeRow ([] : List Cell) headers6 = some nullRec6
    ∧ populatedCount nullRec6 = 0
    ∧ objGet nullRec6 "Brand" = none
    ∧ objGet nullRec6 "Filament type" = none
    ∧ objGet nullRec6 "Material" = none
    ∧ objGet nullRec6 "Type" = none := by decide

/-- C5, amended.  A mapped record is accepted iff one of the columns
`Brand`, `Filament type`, `Material`, `Type` reads truthy (non-null, and
for numbers nonzero — stored strings are never empty), or the record has
more than five keys in total, populated or not; an accepted record is
exactly the mapped record. -/
theorem row_acceptance_iff_identification :
    (∀ (row : List Cell) (hs : List String),
        (validateAndSanitizeRow row hs).isSome
          = identificationSignal (buildRow row hs))
    ∧ (∀ (row : List Cell) (hs : List String) (rec : Obj),
        validateAndSanitizeRow row hs = some rec → rec = buildRow row hs) := by
  constructor
  · intro row hs
    simp only [validateAndSanitizeRow, identificationSignal, List.any_cons,
      List.any_nil, Bool.or_false, Bool.or_assoc, objKeys, List.length_map]
    split_ifs with hc
    · simp only [Option.isSome_some]
      exact hc.symm
    · simp only [Bool.not_eq_true] at hc
      simp only [Option.isSome_none]
      exact hc.symm
  · intro row hs rec hrec
    simp only [validateAndSanitizeRow] at hrec
    split_ifs at hrec
    exact (Option.some.inj hrec).symm

/-- C5, witness for the amended theorem's second part. -/
theorem row_acceptance_witness :
    ([("Brand", JsValue.vstr "Acme")] : Obj) = buildRow [Cell.str "Acme"] ["Brand"] :=
  row_acceptance_iff_identification.2 [Cell.str "Acme"] ["Brand"]
    [("Brand", JsValue.vstr "Acme")] (by decide)

/-! ## Claim C6: URL validation -/

/-- C6, counterexample.  The claim's dichotomy — the output is the input
unchanged, or empty — fails: for an input with a leading space and a
trusted URL, `validateUrl` returns the sanitized (trimmed) string, which is
neither the input nor empty. -/
theorem validateUrl_neither_input_nor_empty :
    validateUrl " https://youtu.be/abc123" ≠ " https://youtu.be/abc123"
    ∧ validateUrl " https://youtu.be/abc123" ≠ ""
    ∧ validateUrl " https://youtu.be/abc123" = "https://youtu.be/abc123" := by
  decide

/-- C6, amended.  `validateUrl` returns the sanitized form of its input
(which equals the input whenever sanitization leaves it unchanged, e.g. for
already-trimmed clean URLs) exactly when that sanitized form parses as an
absolute http/https URL whose hostname equals, or is a dot-suffixed
subdomain of, a trusted hostname; in every other case it returns the empty
string, and it never raises.  In particular `"https://youtu.be/abc123"`
passes through unchanged and `"https://evil.example.com/x"` is rejected. -/
theorem validateUrl_contract :
    (∀ url : String, validateUrl url = ""
        ∨ (validateUrl url = sanitizeString url
            ∧ urlAllowed (sanitizeString url) = true))
    ∧ (∀ url : String, urlAllowed (sanitizeString url) = true →
        validateUrl url = sanitizeString url)
    ∧ validateUrl "https://youtu.be/abc123" = "https://youtu.be/abc123"
    ∧ validateUrl "https://evil.example.com/x" = "" := by
  have hmain : ∀ url : String, url ≠ "" →
      (validateUrl url = "" ∧ urlAllowed (sanitizeString url) = false)
      ∨ (validateUrl url = sanitizeString url
          ∧ urlAllowed (sanitizeString url) = true) := by
    intro url hne
    have hshape : validateUrl url = (match parseUrl (sanitizeString url) with
        | none => ""
        | some u =>
          if !(u.scheme = "http" || u.scheme = "https") then ""
          else if !(trustedDomains.any (fun d =>
              lowerStr u.host = d || strEndsWith (lowerStr u.host) ("." ++ d)))
          then ""
          else sanitizeString url) := by
      rw [validateUrl, if_neg hne]
    rw [hshape, urlAllowed]
    cases hp : parseUrl (sanitizeString url) with
    | none => exact Or.inl ⟨rfl, rfl⟩
    | some u =>
      by_cases hproto : (u.scheme = "http" || u.scheme = "https") = true
      · by_cases htrust : (trustedDomains.any (fun d =>
            lowerStr u.host = d || strEndsWith (lowerStr u.host) ("." ++ d))) = true
        · right
          constructor
          · simp [hproto, htrust]
          · simp [hproto, htrust]
        · left
          constructor
          · simp only [Bool.not_eq_true] at htrust
            simp [hproto, htrust]
          · simp only [Bool.not_eq_true] at htrust
            simp [hproto, htrust]
      · left
        constructor
        · simp only [Bool.not_eq_true] at hproto
          simp [hproto]
        · simp only [Bool.not_eq_true] at hproto
          simp [hproto]
  refine ⟨?_, ?_, by decide, by decide⟩
  · intro url
    by_cases hne : url = ""
    · left
      rw [hne]
      rfl
    · rcases hmain url hne with ⟨h1, _⟩ | ⟨h1, h2⟩
      · exact Or.inl h1
      · exact Or.inr ⟨h1, h2⟩
  · intro url hall
    by_cases hne : url = ""
    · rw [hne] at hall
      exact absurd hall (by decide)
    · rcases hmain url hne with ⟨_, hfalse⟩ | ⟨h1, _⟩
      · rw [hall] at hfalse
        exact absurd hfalse (by simp)
      · exact h1

/-- C6, witness for the amended theorem at a concrete trusted URL. -/
theorem validateUrl_contract_witness :
    validateUrl "https://youtu.be/abc123" = sanitizeString "https://youtu.be/abc123" :=
  validateUrl_contract.2.1 "https://youtu.be/abc123" (by decide)

end MyTechFun
